import Mathlib

/-!
Verification of the contract deployment dependency resolver
(`pkg/flowkit/resolvers/deployment.go`).

The resolver registers contracts, extracts their imports, builds a dependency
graph and topologically sorts it.  Loading and parsing of contract sources are
external collaborators, so a contract enters the model together with the list
of string-location imports extracted from its source.  The `dependencies`
field of a registered contract is a Go map that `newContract` never
initialises; it is modelled as an `Option`al association list, `none` standing
for Go's nil map, and a write to the nil map is modelled as a runtime fault.
The topological sorter delegated to gonum is modelled from the specification.
-/

deriving instance DecidableEq for Except

namespace FlowDeploy

/-- Caller-supplied contract value: a display name plus the unique source
location (`flowkit.Contract`, restricted to the fields the resolver reads). -/
structure Contract where
  name : String
  location : String
deriving DecidableEq

/-- Registry entry wrapping a contract (`deployContract`): the registration
index, the imports extracted at registration time, and the dependency map
populated during graph building.  The Go `dependencies` field is a
`map[string]*deployContract`; it is modelled as an association list from
the import location to the registration index of the resolved contract, wrapped
in `Option` with `none` standing for Go's nil map. -/
structure DeployContract where
  index : Nat
  contract : Contract
  parsedImports : List String
  dependencies : Option (List (String × Nat))
deriving DecidableEq

/-- Read view of the dependency map: ranging over a nil Go map yields no
entries, so reads go through `getD []`. -/
def depsOf (c : DeployContract) : List (String × Nat) := c.dependencies.getD []

/-- Update of one key of a non-nil dependency map, as in
`d.dependencies[location] = dep`: overwrite the entry when the key is already
present, add the entry otherwise. -/
def assocUpdate : List (String × Nat) → String → Nat → List (String × Nat)
  | [], k, v => [(k, v)]
  | (k', v') :: rest, k, v =>
    if k' = k then (k, v) :: rest else (k', v') :: assocUpdate rest k v

/-- Go runtime faults the modelled statements can raise.  `nilMapWrite` is the
runtime panic `assignment to entry in nil map`. -/
inductive GoFault where
  | nilMapWrite
deriving DecidableEq

/-- Method `deployContract.addDependency`, the single statement
`d.dependencies[location] = dep`.  In Go an assignment to an entry of a nil
map is a runtime panic, modelled as a `GoFault`. -/
def addDependency (d : DeployContract) (location : String) (dep : Nat) :
    Except GoFault DeployContract :=
  match d.dependencies with
  | none => .error .nilMapWrite
  | some m => .ok { d with dependencies := some (assocUpdate m location dep) }

/-- Function `newContract`: the Go composite literal sets `index`, `Contract`
and `program` but omits the `dependencies` field, which therefore stays the
nil map (`none`).  The Cadence parser producing `program` is an external
library; the string-location imports later read off the program by
`deployContract.imports` are taken as the `parsedImports` argument. -/
def newContract (contract : Contract) (index : Nat) (parsedImports : List String) :
    DeployContract :=
  { index := index, contract := contract, parsedImports := parsedImports,
    dependencies := none }

/-- Function `NewDeployment`: registers the given contracts in order; `add`
assigns each contract the index `len(d.contracts)` at the moment it is
appended, so indices are `0, 1, 2, ...` in registration order.  Source
loading and parsing are external, so each contract arrives paired with
the imports extracted from its source. -/
def newDeployment (inputs : List (Contract × List String)) : List DeployContract :=
  inputs.enum.map fun p => newContract p.2.1 p.1 p.2.2

/-- Map `contractsByLocation` built by `add` through
`d.contractsByLocation[c.Location] = c`; with duplicate locations the later
registration overwrites the earlier one. -/
def lookupByLocation (cs : List DeployContract) (loc : String) : Option DeployContract :=
  cs.foldl (fun acc c => if c.contract.location = loc then some c else acc) none

/-- Data carried by the `fmt.Errorf` raised by `buildDependencies` for
an import that matches no registered location: the importing contract's name and
the unresolved import path, the two values interpolated into the message. -/
structure UnresolvedImportError where
  contractName : String
  importPath : String
deriving DecidableEq

/-- Message of the `fmt.Errorf` returned by `buildDependencies`. -/
def unresolvedMessage (e : UnresolvedImportError) : String :=
  "import from " ++ e.contractName ++ " could not be found: " ++ e.importPath ++
    ", make sure import path is correct"

/-- Outcome of graph building: the unresolved-import error or a runtime fault. -/
inductive BuildError where
  | unresolved (e : UnresolvedImportError)
  | fault (f : GoFault)
deriving DecidableEq

/-- Inner loop of `buildDependencies` for one contract: walk the
extracted imports in source order; an import matching no registered location aborts
with the unresolved-import error, otherwise the dependency is recorded with
`addDependency`, which faults on the nil map.  The second component is the
contract's state when the loop stops; mutations made before a failure persist,
as they do in Go. -/
def buildImportsGo (name : String) (byLoc : String → Option DeployContract) :
    List String → DeployContract → Except BuildError Unit × DeployContract
  | [], acc => (.ok (), acc)
  | loc :: rest, acc =>
    match byLoc loc with
    | none => (.error (.unresolved { contractName := name, importPath := loc }), acc)
    | some dep =>
      match addDependency acc loc dep.index with
      | .error f => (.error (.fault f), acc)
      | .ok acc' => buildImportsGo name byLoc rest acc'

/-- Body of `buildDependencies` for one contract; `contract.imports()`
recomputes the same string-location import list on every call, here available
as `parsedImports`. -/
def buildDepsOne (byLoc : String → Option DeployContract) (c : DeployContract) :
    Except BuildError Unit × DeployContract :=
  buildImportsGo c.contract.name byLoc c.parsedImports c

/-- Outer loop of `buildDependencies` over the registered contracts, threading
the mutated registry state. -/
def buildContractsGo (byLoc : String → Option DeployContract) :
    List DeployContract → Except BuildError Unit × List DeployContract
  | [] => (.ok (), [])
  | c :: rest =>
    match buildDepsOne byLoc c with
    | (.error e, c') => (.error e, c' :: rest)
    | (.ok _, c') =>
      let r := buildContractsGo byLoc rest
      (r.1, c' :: r.2)

/-- Method `Deployment.buildDependencies`: resolve every extracted import of
every registered contract against the registry, recording each resolved
dependency in the importing contract. -/
def buildDependencies (cs : List DeployContract) :
    Except BuildError Unit × List DeployContract :=
  buildContractsGo (lookupByLocation cs) cs

/-- Edge predicate of the directed graph built in `sortByDeploymentOrder`:
an edge runs from `i` to `j` (dependency before dependent) when the contract
whose node id is `j` records a dependency resolving to index `i`. -/
def edgeB (cs : List DeployContract) (i j : Nat) : Bool :=
  cs.any fun c => c.index == j && (depsOf c).any fun p => p.2 == i

/-- Bounded reachability along dependency edges; `fuel` bounds the number of
edges of the path. -/
def reachN (cs : List DeployContract) : Nat → Nat → Nat → Bool
  | 0, i, j => i == j
  | fuel+1, i, j =>
    i == j || cs.any fun c => (depsOf c).any (fun p => p.2 == i) && reachN cs fuel c.index j

/-- Reachability, with fuel sufficient for any simple path. -/
def reachB (cs : List DeployContract) (i j : Nat) : Bool := reachN cs cs.length i j

/-- Mutual reachability, the strongly-connected-component relation. -/
def mutualReachB (cs : List DeployContract) (i j : Nat) : Bool :=
  reachB cs i j && reachB cs j i

/-- Self-loop: a contract one of whose recorded dependencies resolves to its
own index. -/
def selfLoopB (c : DeployContract) : Bool := (depsOf c).any fun p => p.2 == c.index

/-- Member of a nontrivial strongly connected component: a self-loop node, or
a node mutually reachable with some distinct node. -/
def nontrivialB (cs : List DeployContract) (c : DeployContract) : Bool :=
  selfLoopB c || cs.any fun d => d.index != c.index && mutualReachB cs c.index d.index

/-- Strongly connected component of a node, as the sublist of nodes mutually
reachable with it. -/
def sccOf (cs : List DeployContract) (c : DeployContract) : List DeployContract :=
  cs.filter fun d => mutualReachB cs c.index d.index

/-- Grouping of the nodes in nontrivial strongly connected components into
their components, walking nodes in list order and skipping already assigned
ones. -/
def cyclesAux (cs : List DeployContract) :
    List DeployContract → List Nat → List (List DeployContract)
  | [], _ => []
  | c :: rest, assigned =>
    if assigned.contains c.index then cyclesAux cs rest assigned
    else if nontrivialB cs c then
      sccOf cs c :: cyclesAux cs rest (assigned ++ (sccOf cs c).map (·.index))
    else cyclesAux cs rest assigned

/-- Cycle report of the graph: every strongly connected component of size
greater than one, plus the self-loop nodes. -/
def cyclesOf (cs : List DeployContract) : List (List DeployContract) := cyclesAux cs cs []

/-- Error `CyclicImportError`, carrying the detected cycles. -/
structure CyclicImportError where
  Cycles : List (List DeployContract)
deriving DecidableEq

/-- Method `CyclicImportError.contractNames`: each cycle mapped to the names
of its contracts. -/
def CyclicImportError.contractNames (e : CyclicImportError) : List (List String) :=
  e.Cycles.map fun cycle => cycle.map fun c => c.contract.name

/-- Readiness in the topological sort: every in-edge of `c` (that is, every
recorded dependency of `c`) comes from an already emitted node. -/
def isReady (done : List Nat) (c : DeployContract) : Bool :=
  (depsOf c).all fun p => done.contains p.2

/-- Accumulator step choosing the node of least id. -/
def pickMin (acc : Option DeployContract) (c : DeployContract) : Option DeployContract :=
  match acc with
  | none => some c
  | some b => if c.index < b.index then some c else some b

/-- Among the not-yet-emitted nodes, the ready node of least id. -/
def selectMinReady (remaining : List DeployContract) (done : List Nat) :
    Option DeployContract :=
  (remaining.filter (isReady done)).foldl pickMin none

/-- Main loop of the stabilized topological sort: repeatedly emit the ready
node of least id and retire its id. -/
def kahnAux : Nat → List DeployContract → List Nat → List DeployContract
  | 0, _, _ => []
  | fuel+1, remaining, done =>
    match selectMinReady remaining done with
    | none => []
    | some c =>
      c :: kahnAux fuel (remaining.filter fun d => d.index != c.index) (done ++ [c.index])

/-- Stabilized topological order of the node set, as far as it extends. -/
def kahn (cs : List DeployContract) : List DeployContract := kahnAux cs.length cs []

/-- Modelled from the spec: `sortByDeploymentOrder` delegates the sort to
`topo.SortStabilized` of the external gonum library, which is not part of this
repository.  Following spec sections 4.5 and 8 it is modelled as a topological
sort of the dependency graph whose ties are broken by least node id — the
registration index — and which, when not every node can be ordered, reports
all strongly connected components of size greater than one plus the self-loops
as the cycles of a `CyclicImportError`. -/
def sortByDeploymentOrder (cs : List DeployContract) :
    Except CyclicImportError (List DeployContract) :=
  let sorted := kahn cs
  if sorted.length = cs.length then .ok sorted else .error { Cycles := cyclesOf cs }

/-- Error surfaced by `Deployment.Sort`: the unresolved-import error or the
cyclic-import error returned by the callees, or a runtime fault. -/
inductive SortError where
  | unresolved (e : UnresolvedImportError)
  | cyclic (e : CyclicImportError)
  | fault (f : GoFault)
deriving DecidableEq

/-- Method `Deployment.Sort`: build the dependency graph over the registry,
topologically sort it, and unwrap the sorted entries back to the caller's
contract values.  The second component is the registry state after the call;
Go mutates the registered contracts in place through `buildDependencies`. -/
def deploymentSort (cs : List DeployContract) :
    Except SortError (List Contract) × List DeployContract :=
  match buildDependencies cs with
  | (.error (.unresolved e), cs') => (.error (.unresolved e), cs')
  | (.error (.fault f), cs') => (.error (.fault f), cs')
  | (.ok _, cs') =>
    match sortByDeploymentOrder cs' with
    | .error e => (.error (.cyclic e), cs')
    | .ok sorted => (.ok (sorted.map fun s => s.contract), cs')

/-- Comparison view of a sorter result: the success value is free of registry
state already; a cyclic error is compared through its contract-name cycles. -/
def sortResultView :
    Except CyclicImportError (List DeployContract) → Except (List (List String)) (List Contract)
  | .error e => .error e.contractNames
  | .ok l => .ok (l.map fun c => c.contract)

/-- Two registry entries describing the same registered data: equal indices,
contracts and imports, and dependency maps holding the same entries.  The
list order of the map entries stands for the Go map's arbitrary iteration
order, so it is quotiented by permutation. -/
def SameReg (c c' : DeployContract) : Prop :=
  c.index = c'.index ∧ c.contract = c'.contract ∧ c.parsedImports = c'.parsedImports ∧
    (depsOf c).Perm (depsOf c')

/-- Lift of `SameReg` to optional nodes: both absent, or both present and
related. -/
def SameRegO : Option DeployContract → Option DeployContract → Prop
  | none, none => True
  | some a, some b => SameReg a b
  | _, _ => False

/-- Trace predicate of the sort loop: each emitted node is ready with respect
to the ids emitted before it. -/
inductive Emits : List Nat → List DeployContract → Prop
  | nil (done : List Nat) : Emits done []
  | cons (done : List Nat) (c : DeployContract) (out : List DeployContract) :
      isReady done c = true → Emits (done ++ [c.index]) out → Emits done (c :: out)

/-- Contract fixtures for the concrete scenarios of spec section 8. -/
def contractA : Contract := { name := "A", location := "locA" }

/-- Contract B of the fixtures. -/
def contractB : Contract := { name := "B", location := "locB" }

/-- Contract C of the fixtures. -/
def contractC : Contract := { name := "C", location := "locC" }

/-- Contract D of the fixtures. -/
def contractD : Contract := { name := "D", location := "locD" }

/-- Diamond scenario: A no imports, B and C import A, D imports B and C. -/
def diamondInputs : List (Contract × List String) :=
  [(contractA, []), (contractB, ["locA"]), (contractC, ["locA"]), (contractD, ["locB", "locC"])]

/-- Single contract importing its own location. -/
def selfImportInputs : List (Contract × List String) :=
  [(contractA, ["locA"])]

/-- A's first import resolves to B; its second names an unregistered location. -/
def missingImportInputs : List (Contract × List String) :=
  [(contractA, ["locB", "X"]), (contractB, [])]

/-- Mutual cycle: A imports B and B imports A. -/
def mutualCycleInputs : List (Contract × List String) :=
  [(contractA, ["locB"]), (contractB, ["locA"])]

/-- Linear chain: A with no imports, B importing A. -/
def chainInputs : List (Contract × List String) :=
  [(contractA, []), (contractB, ["locA"])]

/-- Registry state for A whose dependency map is non-nil and empty. -/
def liveA : DeployContract :=
  { index := 0, contract := contractA, parsedImports := [], dependencies := some [] }

/-- Registry state for B with a non-nil empty dependency map and one import. -/
def liveB : DeployContract :=
  { index := 1, contract := contractB, parsedImports := ["locA"], dependencies := some [] }

/-- Registry state for B whose import of A has been recorded. -/
def liveB2 : DeployContract :=
  { index := 1, contract := contractB, parsedImports := ["locA"],
    dependencies := some [("locA", 0)] }

/-- Node with two recorded dependencies on node 0, in one map order. -/
def permB1 : DeployContract :=
  { index := 1, contract := contractB, parsedImports := [],
    dependencies := some [("p", 0), ("q", 0)] }

/-- The same node with its dependency map entries in the other order. -/
def permB2 : DeployContract :=
  { index := 1, contract := contractB, parsedImports := [],
    dependencies := some [("q", 0), ("p", 0)] }

end FlowDeploy

namespace FlowDeploy

theorem addDependency_of_none (d : DeployContract) (loc : String) (dep : Nat)
    (h : d.dependencies = none) : addDependency d loc dep = .error .nilMapWrite := by
  unfold addDependency
  rw [h]

theorem buildImportsGo_state_of_none (name : String) (byLoc : String → Option DeployContract)
    (imps : List String) (acc : DeployContract) (h : acc.dependencies = none) :
    (buildImportsGo name byLoc imps acc).2 = acc := by
  cases imps with
  | nil => rfl
  | cons loc rest =>
    cases hby : byLoc loc with
    | none => simp [buildImportsGo, hby]
    | some dep => simp [buildImportsGo, hby, addDependency, h]

theorem buildImportsGo_ok_of_none (name : String) (byLoc : String → Option DeployContract)
    (imps : List String) (acc : DeployContract) (h : acc.dependencies = none)
    (hok : (buildImportsGo name byLoc imps acc).1 = .ok ()) : imps = [] := by
  cases imps with
  | nil => rfl
  | cons loc rest =>
    exfalso
    cases hby : byLoc loc with
    | none => simp [buildImportsGo, hby] at hok
    | some dep => simp [buildImportsGo, hby, addDependency, h] at hok

theorem buildContractsGo_state_of_none (byLoc : String → Option DeployContract)
    (l : List DeployContract) (h : ∀ c ∈ l, c.dependencies = none) :
    (buildContractsGo byLoc l).2 = l := by
  induction l with
  | nil => rfl
  | cons c rest ih =>
    have hc : c.dependencies = none := h c (List.mem_cons_self c rest)
    have hone : (buildDepsOne byLoc c).2 = c :=
      buildImportsGo_state_of_none c.contract.name byLoc c.parsedImports c hc
    have hrest : (buildContractsGo byLoc rest).2 = rest :=
      ih fun d hd => h d (List.mem_cons_of_mem c hd)
    unfold buildContractsGo
    rcases hsplit : buildDepsOne byLoc c with ⟨r, c'⟩
    rw [hsplit] at hone
    simp only at hone
    cases r with
    | error e => simp [hone]
    | ok u => simp [hone, hrest]

theorem buildContractsGo_ok_imports (byLoc : String → Option DeployContract)
    (l : List DeployContract) (h : ∀ c ∈ l, c.dependencies = none)
    (hok : (buildContractsGo byLoc l).1 = .ok ()) : ∀ c ∈ l, c.parsedImports = [] := by
  induction l with
  | nil => intro c hc; exact absurd hc (List.not_mem_nil c)
  | cons c rest ih =>
    have hc : c.dependencies = none := h c (List.mem_cons_self c rest)
    intro d hd
    unfold buildContractsGo at hok
    rcases hsplit : buildDepsOne byLoc c with ⟨r, c'⟩
    rw [hsplit] at hok
    cases r with
    | error e => simp at hok
    | ok u =>
      simp only at hok
      rcases List.mem_cons.mp hd with hdc | hdrest
      · subst hdc
        refine buildImportsGo_ok_of_none d.contract.name byLoc d.parsedImports d hc ?_
        have hfst : (buildDepsOne byLoc d).1 = Except.ok u := by rw [hsplit]
        unfold buildDepsOne at hfst
        rw [hfst]
      · exact ih (fun e he => h e (List.mem_cons_of_mem c he)) hok d hdrest

end FlowDeploy

namespace FlowDeploy

theorem newDeployment_deps_none (inputs : List (Contract × List String)) :
    ∀ c ∈ newDeployment inputs, c.dependencies = none := by
  intro c hc
  rcases List.mem_map.mp hc with ⟨p, hp, hpc⟩
  rw [← hpc]
  rfl

theorem buildDependencies_state_registered (inputs : List (Contract × List String)) :
    (buildDependencies (newDeployment inputs)).2 = newDeployment inputs :=
  buildContractsGo_state_of_none _ _ (newDeployment_deps_none inputs)

theorem deploymentSort_snd (cs : List DeployContract) :
    (deploymentSort cs).2 = (buildDependencies cs).2 := by
  unfold deploymentSort
  rcases hb : buildDependencies cs with ⟨r, cs'⟩
  cases r with
  | error e => cases e with
    | unresolved e => rfl
    | fault f => rfl
  | ok u =>
    cases hs : sortByDeploymentOrder cs' with
    | error e => simp [hs]
    | ok sorted => simp [hs]

/-- C8: `Deployment.Sort` is side-effect-free on the registry — for every
deployment built by `NewDeployment`, the registry state (each registered
contract's index, parsed imports and pre-call dependency state) is unchanged
by a `Sort` call, the graph and cycle-detection state being rebuilt fresh per
invocation, so sequential repeated `Sort` calls are pure and idempotent. -/
theorem sort_pure_idempotent (inputs : List (Contract × List String)) :
    (deploymentSort (newDeployment inputs)).2 = newDeployment inputs ∧
      deploymentSort ((deploymentSort (newDeployment inputs)).2) =
        deploymentSort (newDeployment inputs) := by
  have h2 : (deploymentSort (newDeployment inputs)).2 = newDeployment inputs := by
    rw [deploymentSort_snd, buildDependencies_state_registered]
  exact ⟨h2, by rw [h2]⟩

/-- C9: for every registered contract, the dependency map never holds more
entries than the contract has parsed imports — it starts empty (the nil map)
and stays within bound through graph building — and whenever graph building
completes successfully the two sizes are equal. -/
theorem deps_le_imports (inputs : List (Contract × List String)) :
    (∀ c ∈ newDeployment inputs, (depsOf c).length ≤ c.parsedImports.length) ∧
      (∀ c ∈ (buildDependencies (newDeployment inputs)).2,
        (depsOf c).length ≤ c.parsedImports.length) ∧
      ((buildDependencies (newDeployment inputs)).1 = .ok () →
        ∀ c ∈ (buildDependencies (newDeployment inputs)).2,
          (depsOf c).length = c.parsedImports.length) := by
  have hnone := newDeployment_deps_none inputs
  have hstate := buildDependencies_state_registered inputs
  have hzero : ∀ c ∈ newDeployment inputs, (depsOf c).length = 0 := by
    intro c hc
    rw [depsOf, hnone c hc]
    rfl
  refine ⟨fun c hc => ?_, fun c hc => ?_, fun hok c hc => ?_⟩
  · rw [hzero c hc]; exact Nat.zero_le _
  · rw [hstate] at hc
    rw [hzero c hc]; exact Nat.zero_le _
  · rw [hstate] at hc
    have hemp : c.parsedImports = [] :=
      buildContractsGo_ok_imports _ _ hnone hok c hc
    rw [hzero c hc, hemp]
    rfl

/-- C9 witness: on a concrete deployment whose graph building completes, the
dependency-map size equals the parsed-import count for a registered contract. -/
theorem deps_le_imports_witness :
    (buildDependencies (newDeployment [(contractA, [])])).1 = .ok () ∧
      (depsOf (newContract contractA 0 [])).length =
        (newContract contractA 0 []).parsedImports.length := by
  constructor
  · decide
  · exact (deps_le_imports [(contractA, [])]).2.2 (by decide) (newContract contractA 0 [])
      (by decide)

/-- C3: claimed — the diamond input A, B imports A, C imports A, D imports B
and C sorts successfully into exactly A, B, C, D.  The code instead faults:
recording B's resolved import of A writes to the never-initialised nil
dependency map, Go's `assignment to entry in nil map` panic, and the registry
is left unchanged. -/
theorem diamond_sort_faults :
    deploymentSort (newDeployment diamondInputs) =
      (.error (.fault .nilMapWrite), newDeployment diamondInputs) := by
  decide

/-- C4: claimed — a contract importing its own location makes `Sort` fail
with a `CyclicImportError` whose single cycle is the contract's name.  The
code instead faults before any cycle detection: the self-import resolves and
`addDependency` writes to the nil dependency map. -/
theorem self_import_sort_faults :
    deploymentSort (newDeployment selfImportInputs) =
      (.error (.fault .nilMapWrite), newDeployment selfImportInputs) := by
  decide

/-- C5: claimed — any registry with an unresolvable import fails with the
unresolved-import error naming the contract and the path.  When a
resolvable import precedes the unresolved one the code faults at the nil-map write first
and the error is never produced; the claimed error is returned only when no
resolvable import is scanned earlier, as in the lone-contract scenario. -/
theorem missing_import_faults_first :
    deploymentSort (newDeployment missingImportInputs) =
      (.error (.fault .nilMapWrite), newDeployment missingImportInputs) ∧
      deploymentSort (newDeployment [(contractA, ["X"])]) =
        (.error (.unresolved { contractName := "A", importPath := "X" }),
          newDeployment [(contractA, ["X"])]) := by
  constructor
  · decide
  · decide

/-- C6: claimed — a cyclic dependency graph makes `Sort` fail with a
`CyclicImportError` carrying every nontrivial strongly connected component.
The code instead faults while still building the graph: recording the first
resolved import of the mutual cycle writes to the nil dependency map, so the
sorter and its cycle detection are never reached. -/
theorem mutual_cycle_sort_faults :
    deploymentSort (newDeployment mutualCycleInputs) =
      (.error (.fault .nilMapWrite), newDeployment mutualCycleInputs) := by
  decide

/-- C10: claimed — the dependency map of every contract built by
`newContract` is ready for `addDependency` writes, so `Sort` never faults.
In the code `newContract` omits the `dependencies` field of the composite
literal, leaving the nil map, and the very first recorded dependency — here
B importing A in a two-contract chain — is a write to a nil map, a Go runtime
panic. -/
theorem chain_sort_faults :
    (newContract contractB 1 ["locA"]).dependencies = none ∧
      deploymentSort (newDeployment chainInputs) =
        (.error (.fault .nilMapWrite), newDeployment chainInputs) := by
  constructor
  · rfl
  · decide

end FlowDeploy

namespace FlowDeploy

theorem pickMin_foldl_mem (l : List DeployContract) (acc : Option DeployContract)
    (c : DeployContract) (h : l.foldl pickMin acc = some c) : acc = some c ∨ c ∈ l := by
  induction l generalizing acc with
  | nil => exact Or.inl h
  | cons x t ih =>
    rcases ih (pickMin acc x) h with hacc | hmem
    · cases acc with
      | none =>
        simp only [pickMin] at hacc
        exact Or.inr (List.mem_cons.mpr (Or.inl (Option.some.inj hacc).symm))
      | some b =>
        simp only [pickMin] at hacc
        by_cases hlt : x.index < b.index
        · rw [if_pos hlt] at hacc
          exact Or.inr (List.mem_cons.mpr (Or.inl (Option.some.inj hacc).symm))
        · rw [if_neg hlt] at hacc
          exact Or.inl hacc
    · exact Or.inr (List.mem_cons_of_mem x hmem)

theorem selectMinReady_spec (remaining : List DeployContract) (done : List Nat)
    (c : DeployContract) (h : selectMinReady remaining done = some c) :
    c ∈ remaining ∧ isReady done c = true := by
  unfold selectMinReady at h
  rcases pickMin_foldl_mem _ none c h with hacc | hmem
  · exact Option.noConfusion hacc
  · exact ⟨List.mem_of_mem_filter hmem, List.of_mem_filter hmem⟩

theorem kahnAux_subset (fuel : Nat) (remaining : List DeployContract) (done : List Nat) :
    ∀ c ∈ kahnAux fuel remaining done, c ∈ remaining := by
  induction fuel generalizing remaining done with
  | zero => intro c hc; exact absurd hc (List.not_mem_nil c)
  | succ fuel ih =>
    intro c hc
    unfold kahnAux at hc
    cases hsel : selectMinReady remaining done with
    | none => rw [hsel] at hc; exact absurd hc (List.not_mem_nil c)
    | some x =>
      rw [hsel] at hc
      rcases List.mem_cons.mp hc with hcx | hct
      · subst hcx; exact (selectMinReady_spec remaining done c hsel).1
      · exact List.mem_of_mem_filter (ih _ _ c hct)

theorem kahnAux_nodup (fuel : Nat) (remaining : List DeployContract) (done : List Nat) :
    (kahnAux fuel remaining done).Nodup := by
  induction fuel generalizing remaining done with
  | zero => exact List.nodup_nil
  | succ fuel ih =>
    unfold kahnAux
    cases hsel : selectMinReady remaining done with
    | none => exact List.nodup_nil
    | some x =>
      refine List.nodup_cons.mpr ⟨fun hmem => ?_, ih _ _⟩
      have hx := kahnAux_subset fuel _ _ x hmem
      have := List.of_mem_filter hx
      simp at this

theorem kahnAux_emits (fuel : Nat) (remaining : List DeployContract) (done : List Nat) :
    Emits done (kahnAux fuel remaining done) := by
  induction fuel generalizing remaining done with
  | zero => exact Emits.nil done
  | succ fuel ih =>
    unfold kahnAux
    cases hsel : selectMinReady remaining done with
    | none => exact Emits.nil done
    | some x =>
      exact Emits.cons done x _ (selectMinReady_spec remaining done x hsel).2 (ih _ _)

theorem emits_deps_before (done : List Nat) (out : List DeployContract)
    (h : Emits done out) :
    ∀ q : Fin out.length, ∀ p ∈ depsOf (out.get q),
      p.2 ∈ done ∨ ∃ q' : Fin out.length, q'.val < q.val ∧ (out.get q').index = p.2 := by
  induction h with
  | nil done => intro q; exact absurd q.isLt (by simp)
  | cons done c rest hready hrest ih =>
    intro q p hp
    rcases q with ⟨qv, hq⟩
    cases qv with
    | zero =>
      have hmem : p.2 ∈ done := by
        have := List.all_eq_true.mp hready p hp
        simpa [List.elem_iff] using this
      exact Or.inl hmem
    | succ qv =>
      have hq' : qv < rest.length := Nat.lt_of_succ_lt_succ hq
      rcases ih ⟨qv, hq'⟩ p hp with hdone | ⟨⟨q'', hq''⟩, hlt, hidx⟩
      · rcases List.mem_append.mp hdone with hold | hnew
        · exact Or.inl hold
        · refine Or.inr ⟨⟨0, Nat.succ_pos _⟩, Nat.succ_pos _, ?_⟩
          simpa using (List.mem_singleton.mp hnew).symm
      · exact Or.inr ⟨⟨q'' + 1, Nat.succ_lt_succ hq''⟩, Nat.succ_lt_succ hlt, hidx⟩

theorem sort_ok_eq (cs sorted : List DeployContract)
    (h : sortByDeploymentOrder cs = .ok sorted) :
    sorted = kahn cs ∧ sorted.length = cs.length := by
  unfold sortByDeploymentOrder at h
  by_cases hlen : (kahn cs).length = cs.length
  · rw [if_pos hlen] at h
    rcases Except.ok.inj h with rfl
    exact ⟨rfl, hlen⟩
  · rw [if_neg hlen] at h
    exact Except.noConfusion h

theorem sort_ok_perm (cs sorted : List DeployContract)
    (h : sortByDeploymentOrder cs = .ok sorted) : sorted.Perm cs := by
  rcases sort_ok_eq cs sorted h with ⟨rfl, hlen⟩
  have hsub : kahn cs ⊆ cs := fun c hc => kahnAux_subset cs.length cs [] c hc
  have hnd : (kahn cs).Nodup := kahnAux_nodup cs.length cs []
  have hsp : List.Subperm (kahn cs) cs := List.subperm_of_subset hnd hsub
  exact hsp.perm_of_length_le (Nat.le_of_eq hlen.symm)

theorem sort_ok_emits (cs sorted : List DeployContract)
    (h : sortByDeploymentOrder cs = .ok sorted) : Emits [] sorted := by
  rcases sort_ok_eq cs sorted h with ⟨rfl, _⟩
  exact kahnAux_emits cs.length cs []

end FlowDeploy

namespace FlowDeploy

theorem buildImportsGo_fields (name : String) (byLoc : String → Option DeployContract)
    (imps : List String) (acc : DeployContract) :
    (buildImportsGo name byLoc imps acc).2.contract = acc.contract ∧
      (buildImportsGo name byLoc imps acc).2.index = acc.index := by
  induction imps generalizing acc with
  | nil => exact ⟨rfl, rfl⟩
  | cons loc rest ih =>
    cases hby : byLoc loc with
    | none => simp [buildImportsGo, hby]
    | some dep =>
      cases hadd : addDependency acc loc dep.index with
      | error f => simp [buildImportsGo, hby, hadd]
      | ok acc' =>
        have hfields : acc'.contract = acc.contract ∧ acc'.index = acc.index := by
          unfold addDependency at hadd
          cases hdeps : acc.dependencies with
          | none => rw [hdeps] at hadd; exact Except.noConfusion hadd
          | some m =>
            rw [hdeps] at hadd
            simp only at hadd
            rcases Except.ok.inj hadd with rfl
            exact ⟨rfl, rfl⟩
        rcases ih acc' with ⟨h1, h2⟩
        constructor
        · simp [buildImportsGo, hby, hadd, h1, hfields.1]
        · simp [buildImportsGo, hby, hadd, h2, hfields.2]

theorem buildContractsGo_maps (byLoc : String → Option DeployContract)
    (l : List DeployContract) :
    ((buildContractsGo byLoc l).2).map (fun c => c.contract) = l.map (fun c => c.contract) ∧
      ((buildContractsGo byLoc l).2).map (fun c => c.index) = l.map (fun c => c.index) := by
  induction l with
  | nil => exact ⟨rfl, rfl⟩
  | cons c rest ih =>
    unfold buildContractsGo
    rcases hsplit : buildDepsOne byLoc c with ⟨r, c'⟩
    have hf : c'.contract = c.contract ∧ c'.index = c.index := by
      have hfld := buildImportsGo_fields c.contract.name byLoc c.parsedImports c
      unfold buildDepsOne at hsplit
      rw [hsplit] at hfld
      simpa using hfld
    cases r with
    | error e => simp [hf.1, hf.2]
    | ok u => simp [hf.1, hf.2, ih.1, ih.2]

theorem deploymentSort_ok_inv (cs : List DeployContract) (out : List Contract)
    (post : List DeployContract) (h : deploymentSort cs = (.ok out, post)) :
    (buildDependencies cs).2 = post ∧
      ∃ sorted, sortByDeploymentOrder post = .ok sorted ∧
        out = sorted.map fun s => s.contract := by
  unfold deploymentSort at h
  rcases hb : buildDependencies cs with ⟨r, cs'⟩
  rw [hb] at h
  cases r with
  | error e =>
    cases e with
    | unresolved e => simp at h
    | fault f => simp at h
  | ok u =>
    cases hs : sortByDeploymentOrder cs' with
    | error e => simp [hs] at h
    | ok sorted =>
      simp only [hs, Prod.mk.injEq] at h
      rcases h with ⟨hout, hpost⟩
      subst hpost
      refine ⟨rfl, sorted, hs, ?_⟩
      exact (Except.ok.inj hout).symm

/-- C7: whenever `Deployment.Sort` returns without error, its output is a
permutation of the registered contract set — same length, same elements, the
caller's original contract values each appearing exactly once. -/
theorem sort_success_permutation (cs : List DeployContract) (out : List Contract)
    (post : List DeployContract) (h : deploymentSort cs = (.ok out, post)) :
    out.Perm (cs.map fun c => c.contract) := by
  rcases deploymentSort_ok_inv cs out post h with ⟨hpost, sorted, hs, hout⟩
  have hperm : sorted.Perm post := sort_ok_perm post sorted hs
  have hmap : post.map (fun c => c.contract) = cs.map (fun c => c.contract) := by
    rw [← hpost]
    exact (buildContractsGo_maps (lookupByLocation cs) cs).1
  rw [hout, ← hmap]
  exact hperm.map fun c => c.contract

/-- C7 witness: a concrete successful sort whose output is a permutation of
the registered contracts. -/
theorem sort_success_permutation_witness :
    ([contractA, contractB] : List Contract).Perm ([liveA, liveB].map fun c => c.contract) :=
  sort_success_permutation [liveA, liveB] [contractA, contractB] [liveA, liveB2] (by decide)

/-- C1: for every registry state with distinct node ids (as registration
guarantees) on which `Deployment.Sort` succeeds, and for every dependency
edge (dep → dependent) recorded in the resolved graph, the dependency's
contract appears strictly before the dependent's contract in the returned
sequence. -/
theorem sort_success_ordering (cs : List DeployContract) (out : List Contract)
    (post : List DeployContract) (hnd : (cs.map fun c => c.index).Nodup)
    (h : deploymentSort cs = (.ok out, post)) :
    ∀ c ∈ post, ∀ p ∈ depsOf c, ∀ d ∈ post, d.index = p.2 →
      ∃ i j : Fin out.length, i.val < j.val ∧ out.get i = d.contract ∧
        out.get j = c.contract := by
  rcases deploymentSort_ok_inv cs out post h with ⟨hpost, sorted, hs, hout⟩
  intro c hc p hp d hd hdidx
  have hperm : sorted.Perm post := sort_ok_perm post sorted hs
  have hem : Emits [] sorted := sort_ok_emits post sorted hs
  have hndpost : (post.map fun c => c.index).Nodup := by
    have hmapidx : post.map (fun c => c.index) = cs.map (fun c => c.index) := by
      rw [← hpost]
      exact (buildContractsGo_maps (lookupByLocation cs) cs).2
    rw [hmapidx]
    exact hnd
  have hcsorted : c ∈ sorted := hperm.mem_iff.mpr hc
  rcases List.mem_iff_getElem.mp hcsorted with ⟨q, hq, hqc⟩
  have hqc' : sorted.get ⟨q, hq⟩ = c := hqc
  rcases emits_deps_before [] sorted hem ⟨q, hq⟩ p (by rw [hqc']; exact hp) with
    hnil | ⟨q', hlt, hidx⟩
  · exact absurd hnil (List.not_mem_nil p.2)
  · have hdq : sorted.get q' = d := by
      have hmem1 : sorted.get q' ∈ post := hperm.mem_iff.mp (sorted.get_mem q' q'.isLt)
      exact List.inj_on_of_nodup_map hndpost hmem1 hd (hidx.trans hdidx.symm)
    subst hout
    have hlen : (sorted.map fun s => s.contract).length = sorted.length := List.length_map _ _
    refine ⟨⟨q'.val, by rw [hlen]; exact q'.isLt⟩, ⟨q, by rw [hlen]; exact hq⟩, hlt, ?_, ?_⟩
    · have hg : (sorted.map fun s => s.contract).get ⟨q'.val, by rw [hlen]; exact q'.isLt⟩ =
          (sorted.get q').contract := by
        simp [List.get_eq_getElem, List.getElem_map]
      rw [hg, hdq]
    · have hg : (sorted.map fun s => s.contract).get ⟨q, by rw [hlen]; exact hq⟩ =
          (sorted.get ⟨q, hq⟩).contract := by
        simp [List.get_eq_getElem, List.getElem_map]
      rw [hg, hqc']

/-- C1 witness: on a concrete successful sort with one dependency edge, the
dependency's contract appears strictly before the dependent's. -/
theorem sort_success_ordering_witness :
    ∃ i j : Fin ([contractA, contractB] : List Contract).length, i.val < j.val ∧
      [contractA, contractB].get i = contractA ∧ [contractA, contractB].get j = contractB :=
  sort_success_ordering [liveA, liveB] [contractA, contractB] [liveA, liveB2]
    (by decide) (by decide) liveB2 (by decide) ("locA", 0) (by decide) liveA
    (by decide) rfl

end FlowDeploy

namespace FlowDeploy

theorem perm_any {α : Type} (l l' : List α) (h : l.Perm l') (p : α → Bool) :
    l.any p = l'.any p := by
  refine Bool.coe_iff_coe.mp ?_
  simp only [List.any_eq_true]
  exact ⟨fun ⟨x, hx, hpx⟩ => ⟨x, h.mem_iff.mp hx, hpx⟩,
    fun ⟨x, hx, hpx⟩ => ⟨x, h.mem_iff.mpr hx, hpx⟩⟩

theorem perm_all {α : Type} (l l' : List α) (h : l.Perm l') (p : α → Bool) :
    l.all p = l'.all p := by
  refine Bool.coe_iff_coe.mp ?_
  simp only [List.all_eq_true]
  exact ⟨fun ha x hx => ha x (h.mem_iff.mpr hx), fun ha x hx => ha x (h.mem_iff.mp hx)⟩

theorem forall2_any {α β : Type} (R : α → β → Prop) (l : List α) (l' : List β)
    (h : List.Forall₂ R l l') (p : α → Bool) (q : β → Bool)
    (hpq : ∀ a b, R a b → p a = q b) : l.any p = l'.any q := by
  induction h with
  | nil => rfl
  | cons hab htail ih => simp only [List.any_cons, hpq _ _ hab, ih]

theorem forall2_filter {α β : Type} (R : α → β → Prop) (l : List α) (l' : List β)
    (h : List.Forall₂ R l l') (p : α → Bool) (q : β → Bool)
    (hpq : ∀ a b, R a b → p a = q b) : List.Forall₂ R (l.filter p) (l'.filter q) := by
  induction h with
  | nil => exact List.Forall₂.nil
  | cons hab htail ih =>
    rename_i a b as bs
    by_cases hpa : p a = true
    · have hqb : q b = true := (hpq a b hab) ▸ hpa
      simpa [List.filter_cons, hpa, hqb] using List.Forall₂.cons hab ih
    · have hqb : q b ≠ true := fun hq => hpa ((hpq a b hab).trans hq)
      simpa [List.filter_cons, hpa, hqb] using ih

theorem forall2_map_eq {α β γ : Type} (R : α → β → Prop) (l : List α) (l' : List β)
    (h : List.Forall₂ R l l') (f : α → γ) (g : β → γ)
    (hfg : ∀ a b, R a b → f a = g b) : l.map f = l'.map g := by
  induction h with
  | nil => rfl
  | cons hab htail ih => simp only [List.map_cons, hfg _ _ hab, ih]

theorem sameReg_depsOf_any (c c' : DeployContract) (h : SameReg c c') (p : String × Nat → Bool) :
    (depsOf c).any p = (depsOf c').any p :=
  perm_any _ _ h.2.2.2 p

theorem sameReg_depsOf_all (c c' : DeployContract) (h : SameReg c c') (p : String × Nat → Bool) :
    (depsOf c).all p = (depsOf c').all p :=
  perm_all _ _ h.2.2.2 p

theorem reachN_sameReg (cs cs' : List DeployContract) (h : List.Forall₂ SameReg cs cs') :
    ∀ fuel i j, reachN cs fuel i j = reachN cs' fuel i j := by
  intro fuel
  induction fuel with
  | zero => intro i j; rfl
  | succ fuel ih =>
    intro i j
    unfold reachN
    refine congrArg (fun b => (i == j) || b) ?_
    refine forall2_any SameReg cs cs' h _ _ ?_
    intro a b hab
    rw [sameReg_depsOf_any a b hab, hab.1, ih]

theorem reachB_sameReg (cs cs' : List DeployContract) (h : List.Forall₂ SameReg cs cs')
    (i j : Nat) : reachB cs i j = reachB cs' i j := by
  unfold reachB
  rw [h.length_eq, reachN_sameReg cs cs' h]

theorem mutualReachB_sameReg (cs cs' : List DeployContract) (h : List.Forall₂ SameReg cs cs')
    (i j : Nat) : mutualReachB cs i j = mutualReachB cs' i j := by
  unfold mutualReachB
  rw [reachB_sameReg cs cs' h, reachB_sameReg cs cs' h]

theorem selfLoopB_sameReg (c c' : DeployContract) (h : SameReg c c') :
    selfLoopB c = selfLoopB c' := by
  unfold selfLoopB
  rw [sameReg_depsOf_any c c' h, h.1]

theorem nontrivialB_sameReg (cs cs' : List DeployContract) (h : List.Forall₂ SameReg cs cs')
    (c c' : DeployContract) (hc : SameReg c c') :
    nontrivialB cs c = nontrivialB cs' c' := by
  unfold nontrivialB
  rw [selfLoopB_sameReg c c' hc]
  refine congrArg (fun b => selfLoopB c' || b) ?_
  refine forall2_any SameReg cs cs' h _ _ ?_
  intro a b hab
  rw [hab.1, hc.1, mutualReachB_sameReg cs cs' h]

theorem sccOf_sameReg (cs cs' : List DeployContract) (h : List.Forall₂ SameReg cs cs')
    (c c' : DeployContract) (hc : SameReg c c') :
    List.Forall₂ SameReg (sccOf cs c) (sccOf cs' c') := by
  unfold sccOf
  refine forall2_filter SameReg cs cs' h _ _ ?_
  intro a b hab
  rw [hab.1, hc.1, mutualReachB_sameReg cs cs' h]

theorem cyclesAux_names (cs cs' : List DeployContract) (h : List.Forall₂ SameReg cs cs')
    (rest : List DeployContract) (rest' : List DeployContract)
    (hr : List.Forall₂ SameReg rest rest') :
    ∀ assigned,
      (cyclesAux cs rest assigned).map (List.map fun c => c.contract.name) =
        (cyclesAux cs' rest' assigned).map (List.map fun c => c.contract.name) := by
  induction hr with
  | nil => intro assigned; rfl
  | cons hab htail ih =>
    rename_i a b as bs
    intro assigned
    unfold cyclesAux
    rw [← hab.1]
    by_cases hmem : assigned.contains a.index = true
    · simp only [hmem, if_true]
      exact ih assigned
    · simp only [Bool.not_eq_true] at hmem
      simp only [hmem, Bool.false_eq_true, if_false]
      rw [← nontrivialB_sameReg cs cs' h a b hab]
      by_cases hnt : nontrivialB cs a = true
      · simp only [hnt, if_true, List.map_cons]
        have hscc := sccOf_sameReg cs cs' h a b hab
        have hnames : (sccOf cs a).map (fun c => c.contract.name) =
            (sccOf cs' b).map (fun c => c.contract.name) :=
          forall2_map_eq SameReg _ _ hscc _ _ (fun x y hxy => by rw [hxy.2.1])
        have hidxs : (sccOf cs a).map (fun c => c.index) =
            (sccOf cs' b).map (fun c => c.index) :=
          forall2_map_eq SameReg _ _ hscc _ _ (fun x y hxy => hxy.1)
        rw [hnames, hidxs, ih]
      · simp only [hnt, Bool.false_eq_true, if_false]
        exact ih assigned

end FlowDeploy

namespace FlowDeploy

theorem isReady_sameReg (done : List Nat) (c c' : DeployContract) (h : SameReg c c') :
    isReady done c = isReady done c' := by
  unfold isReady
  exact sameReg_depsOf_all c c' h _

theorem pickMin_sameReg (acc acc' : Option DeployContract) (h : SameRegO acc acc')
    (c c' : DeployContract) (hc : SameReg c c') :
    SameRegO (pickMin acc c) (pickMin acc' c') := by
  cases acc with
  | none =>
    cases acc' with
    | none => exact hc
    | some b => exact absurd h (by simp [SameRegO])
  | some b =>
    cases acc' with
    | none => exact absurd h (by simp [SameRegO])
    | some b' =>
      have hb : SameReg b b' := h
      show SameRegO (if c.index < b.index then some c else some b)
        (if c'.index < b'.index then some c' else some b')
      rw [hc.1, hb.1]
      by_cases hlt : c'.index < b'.index
      · rw [if_pos hlt, if_pos hlt]; exact hc
      · rw [if_neg hlt, if_neg hlt]; exact hb

theorem foldl_pickMin_sameReg (l l' : List DeployContract) (h : List.Forall₂ SameReg l l') :
    ∀ acc acc', SameRegO acc acc' →
      SameRegO (l.foldl pickMin acc) (l'.foldl pickMin acc') := by
  induction h with
  | nil => intro acc acc' hacc; exact hacc
  | cons hab htail ih =>
    intro acc acc' hacc
    exact ih _ _ (pickMin_sameReg acc acc' hacc _ _ hab)

theorem selectMinReady_sameReg (remaining remaining' : List DeployContract)
    (h : List.Forall₂ SameReg remaining remaining') (done : List Nat) :
    SameRegO (selectMinReady remaining done) (selectMinReady remaining' done) := by
  unfold selectMinReady
  refine foldl_pickMin_sameReg _ _ ?_ none none trivial
  refine forall2_filter SameReg _ _ h _ _ ?_
  intro a b hab
  exact isReady_sameReg done a b hab

theorem kahnAux_sameReg (fuel : Nat) :
    ∀ remaining remaining' done, List.Forall₂ SameReg remaining remaining' →
      List.Forall₂ SameReg (kahnAux fuel remaining done) (kahnAux fuel remaining' done) := by
  induction fuel with
  | zero => intro r r' done h; exact List.Forall₂.nil
  | succ fuel ih =>
    intro r r' done h
    unfold kahnAux
    have hsel := selectMinReady_sameReg r r' h done
    cases hs1 : selectMinReady r done with
    | none =>
      cases hs2 : selectMinReady r' done with
      | none => simp only [hs1, hs2]; exact List.Forall₂.nil
      | some c' => rw [hs1, hs2] at hsel; exact absurd hsel (by simp [SameRegO])
    | some c =>
      cases hs2 : selectMinReady r' done with
      | none => rw [hs1, hs2] at hsel; exact absurd hsel (by simp [SameRegO])
      | some c' =>
        rw [hs1, hs2] at hsel
        have hcc : SameReg c c' := hsel
        simp only [hs1, hs2]
        rw [hcc.1]
        refine List.Forall₂.cons hcc ?_
        refine ih _ _ _ ?_
        refine forall2_filter SameReg _ _ h _ _ ?_
        intro a b hab
        rw [hab.1]

theorem sort_view_sameReg (cs cs' : List DeployContract)
    (h : List.Forall₂ SameReg cs cs') :
    sortResultView (sortByDeploymentOrder cs) = sortResultView (sortByDeploymentOrder cs') := by
  have hk : List.Forall₂ SameReg (kahn cs) (kahn cs') := by
    unfold kahn
    rw [h.length_eq]
    exact kahnAux_sameReg cs'.length cs cs' [] h
  have hlen1 : (kahn cs).length = (kahn cs').length := hk.length_eq
  have hlen2 : cs.length = cs'.length := h.length_eq
  unfold sortByDeploymentOrder
  by_cases hc : (kahn cs).length = cs.length
  · have hc' : (kahn cs').length = cs'.length := by rw [← hlen1, ← hlen2]; exact hc
    rw [if_pos hc, if_pos hc']
    simp only [sortResultView]
    exact congrArg Except.ok (forall2_map_eq SameReg _ _ hk _ _ fun a b hab => hab.2.1)
  · have hc' : ¬(kahn cs').length = cs'.length := by rw [← hlen1, ← hlen2]; exact hc
    rw [if_neg hc, if_neg hc']
    simp only [sortResultView, CyclicImportError.contractNames]
    exact congrArg Except.error (cyclesAux_names cs cs' h cs cs' h [])

/-- C2: `Deployment.Sort` is deterministic: a repeated call on the same
deployment returns the identical result, and the computed ordering does not
depend on the arbitrary iteration order of the internal dependency maps —
registry states holding the same dependency entries in any map order sort to
the same output — nodes with no ordering constraint between them being
emitted by ascending registration index. -/
theorem sort_deterministic :
    (∀ inputs : List (Contract × List String),
      (deploymentSort ((deploymentSort (newDeployment inputs)).2)).1 =
        (deploymentSort (newDeployment inputs)).1) ∧
      ∀ cs cs' : List DeployContract, List.Forall₂ SameReg cs cs' →
        sortResultView (sortByDeploymentOrder cs) =
          sortResultView (sortByDeploymentOrder cs') := by
  constructor
  · intro inputs
    rw [deploymentSort_snd, buildDependencies_state_registered]
  · exact fun cs cs' h => sort_view_sameReg cs cs' h

/-- C2 witness: two registry states whose dependency maps hold the same
entries in opposite orders sort to the same view. -/
theorem sort_deterministic_witness :
    sortResultView (sortByDeploymentOrder [liveA, permB1]) =
      sortResultView (sortByDeploymentOrder [liveA, permB2]) :=
  sort_deterministic.2 [liveA, permB1] [liveA, permB2]
    (List.Forall₂.cons ⟨rfl, rfl, rfl, List.Perm.refl _⟩
      (List.Forall₂.cons ⟨rfl, rfl, rfl, by decide⟩ List.Forall₂.nil))

end FlowDeploy
